import Mathlib

/-!
Shallow embedding of the chat-server conversation store and streaming bridge
(`app/services/conversation_store.py`, `app/services/gemini_service.py`,
`app/schemas/streaming.py`).

Modelling conventions:
* Python `datetime` values are embedded as `Int` time points (arbitrary clock
  ticks); `timedelta` values as `Int` durations.  `datetime.now()` is made
  explicit: every operation that reads the clock takes a `now : Int` argument.
* The Python `dict` of conversations is an insertion-ordered association list
  `List (String × Conversation)` with unique keys (new keys are appended at the
  end, as in a Python dict; in-place mutation of a value keeps its position).
* `list.sort(key=...)` is a stable ascending sort; since the result of a stable
  sort is uniquely determined by the key order, it is embedded by
  `List.insertionSort` on the same key, which is stable.
* Python `metadata` dictionaries are embedded as association lists
  `List (String × String)`; no claim inspects them.
-/

/-- Embedding of `ConversationMessage`: one query/response exchange. -/
structure ConversationMessage where
  query : String
  response : String
  timestamp : Int
  metadata : List (String × String)
deriving Repr, DecidableEq

/-- Embedding of the `Conversation` dataclass. -/
structure Conversation where
  conversation_id : String
  messages : List ConversationMessage
  created_at : Int
  last_accessed : Int
  metadata : List (String × String)
deriving Repr, DecidableEq

/-- Embedding of `Conversation.add_message`: append the new message and bump
`last_accessed` to the current time. -/
def Conversation.add_message (c : Conversation) (query response : String)
    (metadata : List (String × String)) (now : Int) : Conversation :=
  { c with
    messages := c.messages ++ [⟨query, response, now, metadata⟩],
    last_accessed := now }

/-- One entry of the context list built for the Gemini API: a role string and
a parts list holding the text (the Python code builds a dict with keys
"role" and "parts", where "parts" is a one-element list of a text dict). -/
structure GeminiContextEntry where
  role : String
  parts : List String
deriving Repr, DecidableEq

/-- Embedding of `Conversation.get_context_for_gemini`: take the last
`include_last_n` messages when that bound is positive (all messages otherwise)
and emit a user entry followed by a model entry per message.
`messages[-n:]` for `n > 0` is the suffix of length `min n len`, i.e.
`drop (len - n)`. -/
def Conversation.get_context_for_gemini (c : Conversation) (include_last_n : Int) :
    List GeminiContextEntry :=
  let recent :=
    if include_last_n > 0 then
      c.messages.drop (c.messages.length - include_last_n.toNat)
    else c.messages
  recent.flatMap fun m => [⟨"user", [m.query]⟩, ⟨"model", [m.response]⟩]

/-- Embedding of the `_stats` dictionary of `ConversationStore`. -/
structure StoreStats where
  total_conversations_created : Nat
  total_messages_stored : Nat
  conversations_cleaned_up : Nat
  last_cleanup : Option Int
deriving Repr, DecidableEq

/-- Embedding of `ConversationStore`: the ordered conversation map, the
configuration fixed at construction, and the statistics dictionary. -/
structure ConversationStore where
  conversations : List (String × Conversation)
  max_conversations : Nat
  max_conversation_age : Int
  cleanup_interval : Int
  stats : StoreStats
deriving Repr, DecidableEq

/-- Embedding of `ConversationStore.__init__` (the background cleanup thread is
not part of the state; its periodic calls are modelled by explicit calls to
`cleanup_old_conversations`). -/
def ConversationStore.init (max_conversations : Nat)
    (max_conversation_age cleanup_interval : Int) : ConversationStore :=
  ⟨[], max_conversations, max_conversation_age, cleanup_interval, ⟨0, 0, 0, none⟩⟩

/-- Dictionary lookup `self._conversations.get(conversation_id)` on the ordered
association list. -/
def findConv (l : List (String × Conversation)) (id : String) : Option Conversation :=
  (l.find? fun p => decide (p.1 = id)).map (·.2)

/-- Lookup of a conversation in a store. -/
def ConversationStore.find (st : ConversationStore) (id : String) : Option Conversation :=
  findConv st.conversations id

/-- In-place mutation of the conversation stored under `id` (a Python object
update keeps the dict entry at its position). -/
def replaceConv (l : List (String × Conversation)) (id : String) (c : Conversation) :
    List (String × Conversation) :=
  l.map fun p => if p.1 = id then (p.1, c) else p

/-- The sort `remaining_conversations.sort(key=lambda x: x[1].last_accessed)`:
a stable ascending sort by last-access time. -/
def sortByLastAccessed (l : List (String × Conversation)) :
    List (String × Conversation) :=
  List.insertionSort (fun a b => a.2.last_accessed ≤ b.2.last_accessed) l

/-- Embedding of `ConversationStore._cleanup_old_conversations(force)` at clock
time `now`.  Returns the number of removed conversations and the new store.
Phase 0: unless forced, skip when the previous run is less than
`cleanup_interval` old.  Phase 1: mark everything whose `last_accessed` is
older than `now - max_conversation_age`.  Phase 2: if the survivors still
exceed `max_conversations`, additionally mark the oldest excess survivors in
ascending `last_accessed` order.  Finally delete all marked ids and update the
statistics. -/
def ConversationStore.cleanup_old_conversations (st : ConversationStore)
    (force : Bool) (now : Int) : Nat × ConversationStore :=
  let skip := !force &&
    (match st.stats.last_cleanup with
     | some t => decide (now - t < st.cleanup_interval)
     | none => false)
  if skip then (0, st)
  else
    let cutoff := now - st.max_conversation_age
    let ageIds := (st.conversations.filter fun p => decide (p.2.last_accessed < cutoff)).map (·.1)
    let toRemove :=
      if st.conversations.length - ageIds.length > st.max_conversations then
        let remaining := st.conversations.filter fun p => decide (p.1 ∉ ageIds)
        let sorted := sortByLastAccessed remaining
        let excess := sorted.length - st.max_conversations
        if excess > 0 then ageIds ++ (sorted.take excess).map (·.1) else ageIds
      else ageIds
    let conversations' := st.conversations.filter fun p => decide (p.1 ∉ toRemove)
    (toRemove.length,
     { st with
       conversations := conversations',
       stats := { st.stats with
         conversations_cleaned_up := st.stats.conversations_cleaned_up + toRemove.length,
         last_cleanup := some now } })

/-- Embedding of `ConversationStore.create_conversation` for a caller-supplied
id (when the Python caller passes `None`, a fresh UUID string is generated and
used as `id`; the UUID generator is kept outside the model, the caller of the
embedding passes the generated string).  If the id already exists the store is
returned untouched; otherwise a new empty conversation is appended, the
creation counter incremented, and a forced cleanup runs when the live count
now exceeds `max_conversations`. -/
def ConversationStore.create_conversation (st : ConversationStore)
    (id : String) (now : Int) : String × ConversationStore :=
  if (findConv st.conversations id).isSome then (id, st)
  else
    let st1 : ConversationStore :=
      { st with
        conversations := st.conversations ++ [(id, ⟨id, [], now, now, []⟩)],
        stats := { st.stats with
          total_conversations_created := st.stats.total_conversations_created + 1 } }
    let st2 :=
      if st1.conversations.length > st1.max_conversations then
        (st1.cleanup_old_conversations true now).2
      else st1
    (id, st2)

/-- Embedding of `ConversationStore.add_message`: `False` and no mutation when
the id is unknown, otherwise append the message, bump the conversation and the
message counter. -/
def ConversationStore.add_message (st : ConversationStore) (id query response : String)
    (metadata : List (String × String)) (now : Int) : Bool × ConversationStore :=
  match findConv st.conversations id with
  | none => (false, st)
  | some c =>
      let c' := c.add_message query response metadata now
      (true,
       { st with
         conversations := replaceConv st.conversations id c',
         stats := { st.stats with
           total_messages_stored := st.stats.total_messages_stored + 1 } })

/-- Embedding of `ConversationStore.get_conversation`: on a hit the
conversation's `last_accessed` is set to the current time and the (updated)
conversation returned; on a miss nothing changes. -/
def ConversationStore.get_conversation (st : ConversationStore) (id : String)
    (now : Int) : Option Conversation × ConversationStore :=
  match findConv st.conversations id with
  | none => (none, st)
  | some c =>
      let c' := { c with last_accessed := now }
      (some c', { st with conversations := replaceConv st.conversations id c' })

/-- Embedding of `ConversationStore.get_conversation_context`: resolve the
conversation through `get_conversation` (hence the access-time bump) and format
its history. -/
def ConversationStore.get_conversation_context (st : ConversationStore)
    (id : String) (include_last_n : Int) (now : Int) :
    Option (List GeminiContextEntry) × ConversationStore :=
  let r := st.get_conversation id now
  match r.1 with
  | none => (none, r.2)
  | some c => (some (c.get_context_for_gemini include_last_n), r.2)

/-- Embedding of `ConversationStore.conversation_exists`. -/
def ConversationStore.conversation_exists (st : ConversationStore) (id : String) : Bool :=
  (findConv st.conversations id).isSome

/-- Embedding of `ConversationStore.delete_conversation`. -/
def ConversationStore.delete_conversation (st : ConversationStore) (id : String) :
    Bool × ConversationStore :=
  if (findConv st.conversations id).isSome then
    (true, { st with conversations := st.conversations.filter fun p => decide (p.1 ≠ id) })
  else (false, st)

/-- The messages currently stored under `id` (empty when the id is unknown);
a convenience accessor used by the theorems. -/
def ConversationStore.messagesOf (st : ConversationStore) (id : String) :
    List ConversationMessage :=
  match st.find id with
  | some c => c.messages
  | none => []

/-- Embedding of the `StreamingChunk` pydantic schema
(`app/schemas/streaming.py`): `conversation_id` and `error` default to `None`,
`done` to `False`. -/
structure StreamingChunk where
  text : String
  model : String
  conversation_id : Option String
  done : Bool
  error : Option String
deriving Repr, DecidableEq

/-- How the backend fragment stream ends: normal exhaustion (the worker puts
the `None` sentinel on the queue) or an exception raised mid-stream (the worker
puts the exception, carried here as its message string). -/
inductive StreamEnd where
  | normal : StreamEnd
  | backendError : String → StreamEnd
deriving Repr, DecidableEq

/-- The consumer loop of `GeminiService.generate_stream` over the fragments the
worker queued: a fragment with non-empty text is accumulated into the running
`full_response` and forwarded as a non-terminal chunk; an empty-text fragment
is skipped.  Returns the forwarded chunks and the accumulated text. -/
def processChunks (modelName cid : String) (fragments : List String) :
    List StreamingChunk × String :=
  fragments.foldl
    (fun acc t =>
      if t ≠ "" then
        (acc.1 ++ [⟨t, modelName, some cid, false, none⟩], acc.2 ++ t)
      else acc)
    ([], "")

/-- Embedding of `GeminiService.generate_stream` (configured service, the
`data: ...` SSE framing around each JSON chunk elided as a bijective wrapper).
`conversation_id` is the caller-supplied optional id, `freshId` the UUID string
`create_conversation` would mint when no id is supplied, `fragments` the texts
of the chunks produced by the backend before the stream ends with `ending`.
Resolution: no id ⇒ create one; unknown id ⇒ heal by creating under that id.
Then the context fetch (which bumps the access time), the relay loop, and
either the single commit plus done-chunk, or the single error-chunk with no
commit. -/
def generate_stream (st : ConversationStore) (modelName query : String)
    (conversation_id : Option String) (freshId : String)
    (fragments : List String) (ending : StreamEnd) (now : Int) :
    List StreamingChunk × ConversationStore :=
  let r0 :=
    match conversation_id with
    | none => st.create_conversation freshId now
    | some c =>
        if st.conversation_exists c then (c, st)
        else st.create_conversation c now
  let cid := r0.1
  let st1 := r0.2
  let st2 := (st1.get_conversation_context cid 10 now).2
  let relayed := processChunks modelName cid fragments
  let events := relayed.1
  let full_response := relayed.2
  match ending with
  | .normal =>
      let st3 := (st2.add_message cid query full_response [] now).2
      (events ++ [⟨"", modelName, some cid, true, none⟩], st3)
  | .backendError e =>
      (events ++ [⟨"", modelName, some cid, true, some e⟩], st2)

/-! ### Association-list plumbing lemmas -/

theorem findConv_nil (id : String) : findConv [] id = none := rfl

theorem findConv_cons (p : String × Conversation) (l : List (String × Conversation))
    (id : String) :
    findConv (p :: l) id = if p.1 = id then some p.2 else findConv l id := by
  by_cases h : p.1 = id <;> simp [findConv, List.find?_cons, h]

theorem findConv_replaceConv_self (l : List (String × Conversation)) (id : String)
    (c : Conversation) :
    findConv (replaceConv l id c) id = (findConv l id).map fun _ => c := by
  induction l with
  | nil => rfl
  | cons p l ih =>
      by_cases h : p.1 = id
      · simp [replaceConv, findConv_cons, h] at ih ⊢
      · simp only [replaceConv, List.map_cons] at ih ⊢
        rw [if_neg h]
        rw [findConv_cons, findConv_cons, if_neg h, if_neg h, ih]

theorem findConv_replaceConv_ne (l : List (String × Conversation)) (id d : String)
    (c : Conversation) (hne : d ≠ id) :
    findConv (replaceConv l id c) d = findConv l d := by
  induction l with
  | nil => rfl
  | cons p l ih =>
      by_cases h : p.1 = id
      · simp only [replaceConv, List.map_cons, if_pos h] at ih ⊢
        rw [findConv_cons, findConv_cons, if_neg (by simpa [h] using Ne.symm hne),
          if_neg (h ▸ Ne.symm hne), ih]
      · simp only [replaceConv, List.map_cons, if_neg h] at ih ⊢
        rw [findConv_cons, findConv_cons, ih]

theorem findConv_append (l l' : List (String × Conversation)) (d : String) :
    findConv (l ++ l') d =
      match findConv l d with
      | some x => some x
      | none => findConv l' d := by
  induction l with
  | nil => simp [findConv_nil]
  | cons p l ih =>
      by_cases h : p.1 = d
      · simp [List.cons_append, findConv_cons, h]
      · simpa [List.cons_append, findConv_cons, h] using ih

theorem findConv_single (i d : String) (c : Conversation) :
    findConv [(i, c)] d = if i = d then some c else none := by
  simp [findConv_cons, findConv_nil]

/-- Concatenation of a list of fragment texts in order. -/
def joinTexts : List String → String
  | [] => ""
  | t :: ts => t ++ joinTexts ts

theorem processChunks_go (modelName cid : String) (fragments : List String)
    (evs : List StreamingChunk) (s : String) :
    fragments.foldl
      (fun acc t =>
        if t ≠ "" then
          (acc.1 ++ [⟨t, modelName, some cid, false, none⟩], acc.2 ++ t)
        else acc)
      (evs, s)
    = (evs ++ (fragments.filter fun t => decide (t ≠ "")).map
          (fun t => ⟨t, modelName, some cid, false, none⟩),
       s ++ joinTexts (fragments.filter fun t => decide (t ≠ ""))) := by
  induction fragments generalizing evs s with
  | nil => simp [joinTexts]
  | cons t ts ih =>
      simp only [List.foldl_cons, List.filter_cons]
      by_cases h : t = ""
      · rw [if_neg (by simp [h])]
        rw [if_neg (by simp [h])]
        exact ih evs s
      · rw [if_pos (by simp [h])]
        rw [if_pos (by simp [h])]
        rw [ih]
        simp [joinTexts, List.append_assoc, String.append_assoc]

/-- The relay loop forwards exactly the non-empty fragments, in order, and
accumulates exactly their concatenation. -/
theorem processChunks_eq (modelName cid : String) (fragments : List String) :
    processChunks modelName cid fragments
    = ((fragments.filter fun t => decide (t ≠ "")).map
          (fun t => ⟨t, modelName, some cid, false, none⟩),
       joinTexts (fragments.filter fun t => decide (t ≠ ""))) := by
  have h := processChunks_go modelName cid fragments [] ""
  simpa [processChunks] using h


/-! ### Shared concrete stores for witnesses -/

/-- A store holding the single empty conversation "c" (created at time 0). -/
def stOneConv : ConversationStore :=
  ((ConversationStore.init 1000 86400 3600).create_conversation "c" 0).2

/-- `stOneConv` after one exchange was stored at time 1. -/
def stOneMsg : ConversationStore :=
  (stOneConv.add_message "c" "q" "r" [] 1).2

/-! ### Claim theorems: store read/write primitives -/

/-- C6: `create` on an id already present in the store is idempotent — it
returns that id and leaves the whole store untouched: the pre-existing
conversation (messages, `created_at`, count) is unchanged, the creation
counter is not incremented, and no eviction runs. -/
theorem create_existing_id_idempotent (st : ConversationStore) (id : String)
    (now : Int) (c : Conversation) (h : st.find id = some c) :
    st.create_conversation id now = (id, st) := by
  have hb : (findConv st.conversations id).isSome = true := by
    unfold ConversationStore.find at h
    simp [h]
  unfold ConversationStore.create_conversation
  simp [hb]

/-- Witness for C6 at a concrete input. -/
theorem create_existing_id_idempotent_witness :
    stOneConv.find "c" = some ⟨"c", [], 0, 0, []⟩
    ∧ stOneConv.create_conversation "c" 7 = ("c", stOneConv) :=
  ⟨by decide, create_existing_id_idempotent stOneConv "c" 7 ⟨"c", [], 0, 0, []⟩ (by decide)⟩

/-- C8: `get` on a present id bumps that conversation's `last_accessed` to the
current time and returns the conversation; all other conversations, the
statistics and the configuration are untouched.  On an absent id it returns
`none` and the store is entirely unchanged. -/
theorem get_conversation_effects (st : ConversationStore) (id : String) (now : Int) :
    (st.find id = none → st.get_conversation id now = (none, st))
    ∧ ∀ c, st.find id = some c →
        (st.get_conversation id now).1 = some { c with last_accessed := now }
        ∧ (st.get_conversation id now).2.find id = some { c with last_accessed := now }
        ∧ (∀ d, d ≠ id → (st.get_conversation id now).2.find d = st.find d)
        ∧ (st.get_conversation id now).2.stats = st.stats
        ∧ (st.get_conversation id now).2.max_conversations = st.max_conversations
        ∧ (st.get_conversation id now).2.max_conversation_age = st.max_conversation_age
        ∧ (st.get_conversation id now).2.cleanup_interval = st.cleanup_interval := by
  constructor
  · intro h
    unfold ConversationStore.find at h
    unfold ConversationStore.get_conversation
    simp [h]
  · intro c h
    unfold ConversationStore.find at h
    unfold ConversationStore.get_conversation
    simp only [h]
    refine ⟨by trivial, ?_, ?_, by trivial, by trivial, by trivial, by trivial⟩
    · show findConv (replaceConv st.conversations id _) id = _
      rw [findConv_replaceConv_self, h]
      rfl
    · intro d hd
      show findConv (replaceConv st.conversations id _) d = findConv st.conversations d
      exact findConv_replaceConv_ne _ _ _ _ hd

/-- Witness for C8 at a concrete input. -/
theorem get_conversation_effects_witness :
    stOneConv.find "c" = some ⟨"c", [], 0, 0, []⟩
    ∧ (stOneConv.get_conversation "c" 7).1 = some ⟨"c", [], 0, 7, []⟩ := by
  have h : stOneConv.find "c" = some ⟨"c", [], 0, 0, []⟩ := by decide
  exact ⟨h, ((get_conversation_effects stOneConv "c" 7).2 ⟨"c", [], 0, 0, []⟩ h).1⟩

/-- C10: `getContext` on a known id returns the formatted context and, because
it resolves the conversation through `get`, bumps that conversation's
`last_accessed` as a side effect; every other field of that conversation
(in particular its messages), every other conversation, the statistics and the
configuration are unchanged.  On an unknown id it returns `none` with no side
effects. -/
theorem get_conversation_context_effects (st : ConversationStore) (id : String)
    (lastN now : Int) :
    (st.find id = none → st.get_conversation_context id lastN now = (none, st))
    ∧ ∀ c, st.find id = some c →
        (st.get_conversation_context id lastN now).1
          = some (c.get_context_for_gemini lastN)
        ∧ (st.get_conversation_context id lastN now).2.find id
          = some { c with last_accessed := now }
        ∧ (∀ d, d ≠ id → (st.get_conversation_context id lastN now).2.find d = st.find d)
        ∧ (st.get_conversation_context id lastN now).2.stats = st.stats
        ∧ (st.get_conversation_context id lastN now).2.max_conversations
          = st.max_conversations
        ∧ (st.get_conversation_context id lastN now).2.max_conversation_age
          = st.max_conversation_age
        ∧ (st.get_conversation_context id lastN now).2.cleanup_interval
          = st.cleanup_interval := by
  constructor
  · intro h
    unfold ConversationStore.find at h
    unfold ConversationStore.get_conversation_context ConversationStore.get_conversation
    simp [h]
  · intro c h
    unfold ConversationStore.find at h
    unfold ConversationStore.get_conversation_context ConversationStore.get_conversation
    simp only [h]
    refine ⟨by trivial, ?_, ?_, by trivial, by trivial, by trivial, by trivial⟩
    · show findConv (replaceConv st.conversations id _) id = _
      rw [findConv_replaceConv_self, h]
      rfl
    · intro d hd
      show findConv (replaceConv st.conversations id _) d = findConv st.conversations d
      exact findConv_replaceConv_ne _ _ _ _ hd

/-- Witness for C10 at a concrete input. -/
theorem get_conversation_context_effects_witness :
    stOneMsg.find "c" = some ⟨"c", [⟨"q", "r", 1, []⟩], 0, 1, []⟩
    ∧ (stOneMsg.get_conversation_context "c" 10 7).1
        = some [⟨"user", ["q"]⟩, ⟨"model", ["r"]⟩]
    ∧ (stOneMsg.get_conversation_context "c" 10 7).2.find "c"
        = some ⟨"c", [⟨"q", "r", 1, []⟩], 0, 7, []⟩ := by
  have h : stOneMsg.find "c" = some ⟨"c", [⟨"q", "r", 1, []⟩], 0, 1, []⟩ := by decide
  have h2 := (get_conversation_context_effects stOneMsg "c" 10 7).2
    ⟨"c", [⟨"q", "r", 1, []⟩], 0, 1, []⟩ h
  exact ⟨h, by rw [h2.1]; rfl, h2.2.1⟩

/-! ### Claim theorems: streaming bridge -/

/-- C1: a streaming exchange whose backend yields `fragments` and then ends
normally emits one non-terminal chunk per non-empty fragment, carrying the
fragment texts in production order (empty fragments are suppressed and not
accumulated), followed by exactly one terminal chunk with `done = true` and no
error; the conversation gains exactly one message whose response is the
concatenation of the non-empty fragment texts, no other conversation changes,
and the stored-message counter grows by one. -/
theorem generate_stream_normal_behavior (st : ConversationStore)
    (modelName query cid freshId : String) (fragments : List String) (now : Int)
    (c : Conversation) (h : st.find cid = some c) :
    (generate_stream st modelName query (some cid) freshId fragments .normal now).1
      = (fragments.filter fun t => decide (t ≠ "")).map
          (fun t => ⟨t, modelName, some cid, false, none⟩)
        ++ [⟨"", modelName, some cid, true, none⟩]
    ∧ ((generate_stream st modelName query (some cid) freshId fragments .normal now).1.countP
        (·.done)) = 1
    ∧ (generate_stream st modelName query (some cid) freshId fragments .normal now).2.find cid
      = some { c with
          messages := c.messages
            ++ [⟨query, joinTexts (fragments.filter fun t => decide (t ≠ "")), now, []⟩],
          last_accessed := now }
    ∧ (∀ d, d ≠ cid →
        (generate_stream st modelName query (some cid) freshId fragments .normal now).2.find d
          = st.find d)
    ∧ (generate_stream st modelName query
          (some cid) freshId fragments .normal now).2.stats.total_messages_stored
      = st.stats.total_messages_stored + 1 := by
  have hfc : findConv st.conversations cid = some c := h
  have hex : st.conversation_exists cid = true := by
    unfold ConversationStore.conversation_exists
    rw [hfc]
    rfl
  have hrep : findConv (replaceConv st.conversations cid { c with last_accessed := now }) cid
      = some { c with last_accessed := now } := by
    rw [findConv_replaceConv_self, hfc]
    rfl
  refine ⟨?_, ?_, ?_, ?_, ?_⟩
  · simp [generate_stream, hex, processChunks_eq]
  · simp [generate_stream, hex, processChunks_eq, List.countP_append, List.countP_map,
      Function.comp, List.countP_cons]
  · simp only [generate_stream, hex, if_true,
      ConversationStore.get_conversation_context, ConversationStore.get_conversation,
      hfc, ConversationStore.add_message, hrep, ConversationStore.find]
    rw [findConv_replaceConv_self]
    rw [findConv_replaceConv_self, hfc]
    simp [processChunks_eq, Conversation.add_message]
  · intro d hd
    simp only [generate_stream, hex, if_true,
      ConversationStore.get_conversation_context, ConversationStore.get_conversation,
      hfc, ConversationStore.add_message, hrep, ConversationStore.find]
    rw [findConv_replaceConv_ne _ _ _ _ hd, findConv_replaceConv_ne _ _ _ _ hd]
  · simp [generate_stream, hex, ConversationStore.get_conversation_context,
      ConversationStore.get_conversation, hfc, ConversationStore.add_message, hrep]

/-- Witness for C1: Scenario D — fragments "Hel", "lo", then normal end. -/
theorem generate_stream_normal_behavior_witness :
    stOneConv.find "c" = some ⟨"c", [], 0, 0, []⟩
    ∧ (generate_stream stOneConv "m" "q" (some "c") "f" ["Hel", "lo"] .normal 5).1
        = [⟨"Hel", "m", some "c", false, none⟩, ⟨"lo", "m", some "c", false, none⟩,
           ⟨"", "m", some "c", true, none⟩]
    ∧ (generate_stream stOneConv "m" "q" (some "c") "f" ["Hel", "lo"] .normal 5).2.find "c"
        = some ⟨"c", [⟨"q", "Hello", 5, []⟩], 0, 5, []⟩ := by
  have h : stOneConv.find "c" = some ⟨"c", [], 0, 0, []⟩ := by decide
  have hb := generate_stream_normal_behavior stOneConv "m" "q" "c" "f"
    ["Hel", "lo"] 5 ⟨"c", [], 0, 0, []⟩ h
  refine ⟨h, ?_, ?_⟩
  · rw [hb.1]
    decide
  · rw [hb.2.2.1]
    decide

/-- C2: a streaming exchange in which the backend raises after yielding
`fragments` emits the non-terminal chunks for the non-empty fragments
delivered so far, then exactly one terminal chunk with the error set and
`done = true`; no message is committed (the conversation keeps its messages,
only its access time is bumped by the context fetch, and the stored-message
counter does not change), and on either ending exactly one terminal chunk is
emitted per invocation. -/
theorem generate_stream_error_behavior (st : ConversationStore)
    (modelName query cid freshId e : String) (fragments : List String) (now : Int)
    (c : Conversation) (h : st.find cid = some c) :
    (generate_stream st modelName query (some cid) freshId fragments (.backendError e) now).1
      = (fragments.filter fun t => decide (t ≠ "")).map
          (fun t => ⟨t, modelName, some cid, false, none⟩)
        ++ [⟨"", modelName, some cid, true, some e⟩]
    ∧ (generate_stream st modelName query (some cid) freshId fragments
          (.backendError e) now).2.find cid
      = some { c with last_accessed := now }
    ∧ (∀ d, d ≠ cid →
        (generate_stream st modelName query (some cid) freshId fragments
            (.backendError e) now).2.find d
          = st.find d)
    ∧ (generate_stream st modelName query (some cid) freshId fragments
          (.backendError e) now).2.stats.total_messages_stored
      = st.stats.total_messages_stored
    ∧ (∀ ending : StreamEnd,
        ((generate_stream st modelName query (some cid) freshId fragments ending now).1.countP
          (·.done)) = 1) := by
  have hfc : findConv st.conversations cid = some c := h
  have hex : st.conversation_exists cid = true := by
    unfold ConversationStore.conversation_exists
    rw [hfc]
    rfl
  refine ⟨?_, ?_, ?_, ?_, ?_⟩
  · simp [generate_stream, hex, processChunks_eq]
  · simp only [generate_stream, hex, if_true,
      ConversationStore.get_conversation_context, ConversationStore.get_conversation,
      hfc, ConversationStore.find]
    rw [findConv_replaceConv_self, hfc]
    rfl
  · intro d hd
    simp only [generate_stream, hex, if_true,
      ConversationStore.get_conversation_context, ConversationStore.get_conversation,
      hfc, ConversationStore.find]
    rw [findConv_replaceConv_ne _ _ _ _ hd]
  · simp [generate_stream, hex, ConversationStore.get_conversation_context,
      ConversationStore.get_conversation, hfc]
  · intro ending
    cases ending with
    | normal =>
        have hrep : findConv (replaceConv st.conversations cid
            { c with last_accessed := now }) cid
            = some { c with last_accessed := now } := by
          rw [findConv_replaceConv_self, hfc]
          rfl
        simp [generate_stream, hex, processChunks_eq, List.countP_append,
          List.countP_map, Function.comp, List.countP_cons,
          ConversationStore.get_conversation_context, ConversationStore.get_conversation,
          hfc, ConversationStore.add_message, hrep]
    | backendError e' =>
        simp [generate_stream, hex, processChunks_eq, List.countP_append,
          List.countP_map, Function.comp, List.countP_cons]

/-- Witness for C2: Scenario E — one fragment, then a backend error. -/
theorem generate_stream_error_behavior_witness :
    stOneConv.find "c" = some ⟨"c", [], 0, 0, []⟩
    ∧ (generate_stream stOneConv "m" "q" (some "c") "f" ["Hel"] (.backendError "boom") 5).1
        = [⟨"Hel", "m", some "c", false, none⟩, ⟨"", "m", some "c", true, some "boom"⟩]
    ∧ (generate_stream stOneConv "m" "q" (some "c") "f" ["Hel"] (.backendError "boom") 5).2.find "c"
        = some ⟨"c", [], 0, 5, []⟩ := by
  have h : stOneConv.find "c" = some ⟨"c", [], 0, 0, []⟩ := by decide
  have hb := generate_stream_error_behavior stOneConv "m" "q" "c" "f" "boom"
    ["Hel"] 5 ⟨"c", [], 0, 0, []⟩ h
  refine ⟨h, ?_, ?_⟩
  · rw [hb.1]
    decide
  · rw [hb.2.1]

/-! ### Context formatting lemmas -/

theorem flatMap_pairs_length (ms : List ConversationMessage) :
    (ms.flatMap fun m =>
      ([⟨"user", [m.query]⟩, ⟨"model", [m.response]⟩] : List GeminiContextEntry)).length
    = 2 * ms.length := by
  induction ms with
  | nil => rfl
  | cons m ms ih =>
      simp only [List.flatMap_cons, List.length_append, List.length_cons,
        List.length_nil, ih]
      omega

theorem flatMap_pairs_getElem (ms : List ConversationMessage) (i : Nat) :
    ((ms.flatMap fun m =>
        ([⟨"user", [m.query]⟩, ⟨"model", [m.response]⟩] : List GeminiContextEntry))[2 * i]?
      = (ms[i]?).map fun m => ⟨"user", [m.query]⟩)
    ∧ ((ms.flatMap fun m =>
        ([⟨"user", [m.query]⟩, ⟨"model", [m.response]⟩] : List GeminiContextEntry))[2 * i + 1]?
      = (ms[i]?).map fun m => ⟨"model", [m.response]⟩) := by
  induction ms generalizing i with
  | nil => simp
  | cons m ms ih =>
      cases i with
      | zero => simp [List.flatMap_cons]
      | succ j =>
          have e1 : 2 * (j + 1) = (2 * j + 1) + 1 := by ring
          rw [List.flatMap_cons, e1]
          simp only [List.cons_append, List.nil_append, List.getElem?_cons_succ]
          exact ih j

theorem flatMap_pairs_getLast (ms : List ConversationMessage) :
    (ms.flatMap fun m =>
        ([⟨"user", [m.query]⟩, ⟨"model", [m.response]⟩] : List GeminiContextEntry)).getLast?
      = (ms.getLast?).map fun m => ⟨"model", [m.response]⟩ := by
  induction ms using List.reverseRecOn with
  | nil => rfl
  | append_singleton l a ih =>
      rw [List.flatMap_append, List.getLast?_append, List.getLast?_concat]
      rfl

theorem getLast?_drop_of_ne_nil {α : Type} (l : List α) (n : Nat) (h : l.drop n ≠ []) :
    (l.drop n).getLast? = l.getLast? := by
  conv_rhs => rw [← List.take_append_drop n l]
  rw [List.getLast?_append]
  cases hd : (l.drop n).getLast? with
  | none =>
      rw [List.getLast?_eq_none_iff] at hd
      exact absurd hd h
  | some x => rfl

/-! ### Claim theorems: context extraction (C5) -/

/-- Counterexample to C5 as stated: the claim that `getContext(id, lastN=K)` returns
`min(K, messageCount)` entries: on a conversation with one stored message and
`K = 1` the returned sequence has 2 entries (one user entry and one model
entry), not `min(1, 1) = 1`. -/
theorem getContext_entry_count_counterexample :
    (stOneMsg.get_conversation_context "c" 1 7).1.map List.length = some 2
    ∧ min (1 : Nat) 1 = 1
    ∧ (2 : Nat) ≠ 1 := by
  refine ⟨by decide, rfl, by decide⟩

/-- C5 (amended): for K > 0, `getContext(id, lastN=K)` returns exactly
`2 * min(K, messageCount)` entries — a user/model pair per included message —
role-alternating, oldest-first, carrying the texts of the last
`min(K, messageCount)` stored messages, and ending with the most recent model
response; for K ≤ 0 it returns pairs for all messages; for an unknown id it
returns `none`. -/
theorem getContext_shape (st : ConversationStore) (id : String) (K now : Int) :
    (st.find id = none → (st.get_conversation_context id K now).1 = none)
    ∧ ∀ c, st.find id = some c →
        ∃ ctx, (st.get_conversation_context id K now).1 = some ctx
          ∧ (0 < K → ctx.length = 2 * min K.toNat c.messages.length)
          ∧ (K ≤ 0 → ctx.length = 2 * c.messages.length)
          ∧ (∀ i : Nat,
              ctx[2 * i]?
                = (c.messages[(if 0 < K then c.messages.length - K.toNat else 0) + i]?).map
                    (fun m => ⟨"user", [m.query]⟩)
              ∧ ctx[2 * i + 1]?
                = (c.messages[(if 0 < K then c.messages.length - K.toNat else 0) + i]?).map
                    (fun m => ⟨"model", [m.response]⟩))
          ∧ ctx.getLast? = (c.messages.getLast?).map fun m => ⟨"model", [m.response]⟩ := by
  constructor
  · intro h
    unfold ConversationStore.find at h
    unfold ConversationStore.get_conversation_context ConversationStore.get_conversation
    simp [h]
  · intro c h
    unfold ConversationStore.find at h
    refine ⟨c.get_context_for_gemini K, ?_, ?_, ?_, ?_, ?_⟩
    · unfold ConversationStore.get_conversation_context ConversationStore.get_conversation
      simp only [h]
      rfl
    · intro hK
      unfold Conversation.get_context_for_gemini
      simp only [if_pos hK]
      rw [flatMap_pairs_length, List.length_drop]
      omega
    · intro hK
      unfold Conversation.get_context_for_gemini
      rw [if_neg (by omega)]
      exact flatMap_pairs_length c.messages
    · intro i
      unfold Conversation.get_context_for_gemini
      by_cases hK : 0 < K
      · simp only [if_pos hK]
        rw [(flatMap_pairs_getElem _ i).1, (flatMap_pairs_getElem _ i).2,
          List.getElem?_drop]
        exact ⟨rfl, rfl⟩
      · simp only [if_neg hK]
        rw [Nat.zero_add, (flatMap_pairs_getElem _ i).1, (flatMap_pairs_getElem _ i).2]
        exact ⟨rfl, rfl⟩
    · unfold Conversation.get_context_for_gemini
      by_cases hK : 0 < K
      · simp only [if_pos hK]
        rw [flatMap_pairs_getLast]
        by_cases hnil : c.messages.drop (c.messages.length - K.toNat) = []
        · have h1 := List.length_drop (c.messages.length - K.toNat) c.messages
          rw [hnil] at h1
          have hk1 : 0 < K.toNat := by omega
          have hlen0 : c.messages.length = 0 := by
            simp only [List.length_nil] at h1
            omega
          rw [List.length_eq_zero.mp hlen0]
          simp
        · rw [getLast?_drop_of_ne_nil _ _ hnil]
      · simp only [if_neg hK]
        exact flatMap_pairs_getLast c.messages

/-- Witness for the amended C5 at a concrete input. -/
theorem getContext_shape_witness :
    stOneMsg.find "c" = some ⟨"c", [⟨"q", "r", 1, []⟩], 0, 1, []⟩
    ∧ (stOneMsg.get_conversation_context "c" 10 7).1.map List.length = some 2 := by
  have h : stOneMsg.find "c" = some ⟨"c", [⟨"q", "r", 1, []⟩], 0, 1, []⟩ := by decide
  obtain ⟨ctx, hctx, hlen, -, -, -⟩ := (getContext_shape stOneMsg "c" 10 7).2 _ h
  refine ⟨h, ?_⟩
  rw [hctx]
  simp [hlen (by decide)]

/-! ### Call-sequence machinery for the create/addMessage claims -/

theorem findConv_isSome_iff (l : List (String × Conversation)) (id : String) :
    (findConv l id).isSome = true ↔ id ∈ l.map (·.1) := by
  induction l with
  | nil => simp [findConv_nil]
  | cons p l ih =>
      rw [findConv_cons]
      by_cases h : p.1 = id
      · simp [h]
      · simp only [List.map_cons, List.mem_cons, if_neg h, ih]
        constructor
        · intro hm
          exact Or.inr hm
        · rintro (hm | hm)
          · exact absurd hm.symm h
          · exact hm

theorem keys_replaceConv (l : List (String × Conversation)) (id : String)
    (c : Conversation) :
    (replaceConv l id c).map (·.1) = l.map (·.1) := by
  unfold replaceConv
  rw [List.map_map]
  refine List.map_congr_left fun p _ => ?_
  by_cases h : p.1 = id <;> simp [h]

/-- A call in a `create`/`addMessage` call sequence (metadata of stored
messages fixed to the default empty mapping). -/
inductive StoreOp where
  | create (id : String) (now : Int) : StoreOp
  | add (id query response : String) (now : Int) : StoreOp
deriving Repr, DecidableEq

/-- Execute one call. -/
def applyOp (st : ConversationStore) : StoreOp → ConversationStore
  | .create id now => (st.create_conversation id now).2
  | .add id q r now => (st.add_message id q r [] now).2

/-- Execute a call sequence left to right. -/
def runOps (st : ConversationStore) : List StoreOp → ConversationStore
  | [] => st
  | op :: rest => runOps (applyOp st op) rest

/-- Holds when no `create` call of the sequence pushes the live count past
`max_conversations`, i.e. no call triggers a forced eviction. -/
def noForcedCleanup (st : ConversationStore) : List StoreOp → Bool
  | [] => true
  | op :: rest =>
      (match op with
       | .create id _ =>
           (findConv st.conversations id).isSome
           || decide (st.conversations.length + 1 ≤ st.max_conversations)
       | .add _ _ _ _ => true)
      && noForcedCleanup (applyOp st op) rest

/-- The query/response pairs contributed to conversation `id` by the
successful `addMessage` calls of the sequence, in call order, given the list
`created` of ids present at the start (an `addMessage` succeeds exactly when
its id has been created and not evicted). -/
def expectedMsgs (created : List String) (id : String) :
    List StoreOp → List (String × String)
  | [] => []
  | .create i _ :: rest =>
      expectedMsgs (if i ∈ created then created else created ++ [i]) id rest
  | .add i q r _ :: rest =>
      (if i = id ∧ i ∈ created then [(q, r)] else []) ++ expectedMsgs created id rest

/-- In an eviction-free run, the stored messages of every conversation are
exactly the initial ones followed by the pairs of the successful
`addMessage` calls, in call order. -/
theorem runOps_messages (ops : List StoreOp) :
    ∀ (st : ConversationStore) (id : String),
    noForcedCleanup st ops = true →
    ((runOps st ops).messagesOf id).map (fun m => (m.query, m.response))
    = ((st.messagesOf id).map fun m => (m.query, m.response))
      ++ expectedMsgs (st.conversations.map (·.1)) id ops := by
  induction ops with
  | nil =>
      intro st id _
      simp [runOps, expectedMsgs]
  | cons op rest ih =>
      intro st id h
      simp only [noForcedCleanup, Bool.and_eq_true] at h
      obtain ⟨h1, h2⟩ := h
      cases op with
      | create i tnow =>
          by_cases hex : (findConv st.conversations i).isSome = true
          · have happ : applyOp st (.create i tnow) = st := by
              simp [applyOp, ConversationStore.create_conversation, hex]
            rw [runOps, happ]
            rw [happ] at h2
            rw [ih st id h2, expectedMsgs,
              if_pos ((findConv_isSome_iff _ _).mp hex)]
          · have hle : st.conversations.length + 1 ≤ st.max_conversations := by
              rw [Bool.or_eq_true] at h1
              rcases h1 with h1 | h1
              · exact absurd h1 hex
              · exact of_decide_eq_true h1
            have happ : applyOp st (.create i tnow)
                = { st with
                    conversations := st.conversations ++ [(i, ⟨i, [], tnow, tnow, []⟩)],
                    stats := { st.stats with
                      total_conversations_created :=
                        st.stats.total_conversations_created + 1 } } := by
              simp only [applyOp, ConversationStore.create_conversation]
              rw [if_neg hex]
              simp only [List.length_append, List.length_cons, List.length_nil]
              rw [if_neg (by omega)]
            rw [runOps, happ]
            rw [happ] at h2
            rw [ih _ id h2]
            have hmsg : (ConversationStore.messagesOf
                { st with
                  conversations := st.conversations ++ [(i, ⟨i, [], tnow, tnow, []⟩)],
                  stats := { st.stats with
                    total_conversations_created :=
                      st.stats.total_conversations_created + 1 } } id)
                = st.messagesOf id := by
              unfold ConversationStore.messagesOf ConversationStore.find
              simp only
              rw [findConv_append]
              by_cases hid : i = id
              · subst hid
                have : findConv st.conversations i = none := by
                  cases hfc : findConv st.conversations i with
                  | none => rfl
                  | some c => rw [hfc] at hex; exact absurd rfl hex
                rw [this, findConv_single, if_pos rfl]
              · cases hfc : findConv st.conversations id with
                | none => rw [findConv_single, if_neg hid]
                | some c => rfl
            rw [hmsg]
            have hkeys : ({ st with
                  conversations := st.conversations ++ [(i, ⟨i, [], tnow, tnow, []⟩)],
                  stats := { st.stats with
                    total_conversations_created :=
                      st.stats.total_conversations_created + 1 } } :
                ConversationStore).conversations.map (·.1)
                = st.conversations.map (·.1) ++ [i] := by
              simp
            rw [hkeys, expectedMsgs,
              if_neg (fun hm => hex ((findConv_isSome_iff _ _).mpr hm))]
      | add i q r tnow =>
          cases hfc : findConv st.conversations i with
          | none =>
              have happ : applyOp st (.add i q r tnow) = st := by
                simp [applyOp, ConversationStore.add_message, hfc]
              rw [runOps, happ]
              rw [happ] at h2
              rw [ih st id h2, expectedMsgs]
              have hni : ¬ i ∈ st.conversations.map (·.1) := fun hm => by
                have := (findConv_isSome_iff st.conversations i).mpr hm
                rw [hfc] at this
                simp at this
              rw [if_neg (fun hand => hni hand.2)]
              simp
          | some c =>
              have happ : applyOp st (.add i q r tnow)
                  = { st with
                      conversations := replaceConv st.conversations i
                        (c.add_message q r [] tnow),
                      stats := { st.stats with
                        total_messages_stored := st.stats.total_messages_stored + 1 } } := by
                simp [applyOp, ConversationStore.add_message, hfc]
              rw [runOps, happ]
              rw [happ] at h2
              rw [ih _ id h2]
              have hkeys : (replaceConv st.conversations i
                    (c.add_message q r [] tnow)).map (·.1)
                  = st.conversations.map (·.1) := keys_replaceConv _ _ _
              have hmem : i ∈ st.conversations.map (·.1) :=
                (findConv_isSome_iff _ _).mp (by rw [hfc]; rfl)
              by_cases hid : i = id
              · subst hid
                have hmsg : (ConversationStore.messagesOf
                    { st with
                      conversations := replaceConv st.conversations i
                        (c.add_message q r [] tnow),
                      stats := { st.stats with
                        total_messages_stored := st.stats.total_messages_stored + 1 } } i)
                    = c.messages ++ [⟨q, r, tnow, []⟩] := by
                  unfold ConversationStore.messagesOf ConversationStore.find
                  simp only
                  rw [findConv_replaceConv_self, hfc]
                  rfl
                have hmsg0 : st.messagesOf i = c.messages := by
                  unfold ConversationStore.messagesOf ConversationStore.find
                  rw [hfc]
                rw [hmsg, hmsg0, expectedMsgs, if_pos ⟨rfl, hmem⟩, hkeys]
                simp
              · have hmsg : (ConversationStore.messagesOf
                    { st with
                      conversations := replaceConv st.conversations i
                        (c.add_message q r [] tnow),
                      stats := { st.stats with
                        total_messages_stored := st.stats.total_messages_stored + 1 } } id)
                    = st.messagesOf id := by
                  unfold ConversationStore.messagesOf ConversationStore.find
                  simp only
                  rw [findConv_replaceConv_ne _ _ _ _ (fun hh => hid hh.symm)]
                rw [hmsg, expectedMsgs, if_neg (fun hand => hid hand.1), hkeys]
                simp

/-! ### Claim theorems: addMessage (C7) -/

/-- The C7 counterexample run: with `maxConversations = 1`, create A, add one
message to A (succeeds), create B (forces eviction of A), create A again. -/
def stC7 : ConversationStore :=
  runOps (ConversationStore.init 1 86400 3600)
    [.create "A" 0, .add "A" "q" "r" 1, .create "B" 2, .create "A" 3]

/-- Counterexample to the sequence part of C7 as universally stated: in the
run of `stC7`, the single `addMessage` call on "A" succeeded, yet at the end
the conversation "A" (evicted by B's insert and recreated) holds 0 messages,
not 1. -/
theorem add_message_count_counterexample :
    ((runOps (ConversationStore.init 1 86400 3600)
        [.create "A" 0]).add_message "A" "q" "r" [] 1).1 = true
    ∧ (stC7.messagesOf "A").length = 0
    ∧ (1 : Nat) ≠ 0 := by
  refine ⟨by decide, by decide, by decide⟩

/-- C7 (amended): `addMessage` on an unknown id returns false and mutates
nothing; on a known id it appends exactly the given message, bumps
`last_accessed`, increments the message counter and returns true; and for
every `create`/`addMessage` sequence in which no create call forces an
eviction, each conversation's stored messages are exactly the pairs of the
successful `addMessage` calls on that id, in call order. -/
theorem add_message_effects :
    (∀ (st : ConversationStore) (id q r : String) (md : List (String × String))
       (now : Int), st.find id = none → st.add_message id q r md now = (false, st))
    ∧ (∀ (st : ConversationStore) (id q r : String) (md : List (String × String))
         (now : Int) (c : Conversation), st.find id = some c →
        (st.add_message id q r md now).1 = true
        ∧ (st.add_message id q r md now).2.find id
            = some { c with
                messages := c.messages ++ [⟨q, r, now, md⟩], last_accessed := now }
        ∧ (∀ d, d ≠ id → (st.add_message id q r md now).2.find d = st.find d)
        ∧ (st.add_message id q r md now).2.stats.total_messages_stored
            = st.stats.total_messages_stored + 1)
    ∧ (∀ (N : Nat) (age interval : Int) (ops : List StoreOp) (id : String),
        noForcedCleanup (ConversationStore.init N age interval) ops = true →
        ((runOps (ConversationStore.init N age interval) ops).messagesOf id).map
            (fun m => (m.query, m.response))
          = expectedMsgs [] id ops) := by
  refine ⟨?_, ?_, ?_⟩
  · intro st id q r md now h
    unfold ConversationStore.find at h
    unfold ConversationStore.add_message
    rw [h]
  · intro st id q r md now c h
    unfold ConversationStore.find at h
    unfold ConversationStore.add_message
    rw [h]
    refine ⟨rfl, ?_, ?_, rfl⟩
    · show findConv (replaceConv st.conversations id _) id = _
      rw [findConv_replaceConv_self, h]
      rfl
    · intro d hd
      show findConv (replaceConv st.conversations id _) d = findConv st.conversations d
      exact findConv_replaceConv_ne _ _ _ _ hd
  · intro N age interval ops id h
    have := runOps_messages ops (ConversationStore.init N age interval) id h
    simpa [ConversationStore.init, ConversationStore.messagesOf,
      ConversationStore.find, findConv_nil] using this

/-- Witness for the amended C7 at a concrete input. -/
theorem add_message_effects_witness :
    noForcedCleanup (ConversationStore.init 1000 86400 3600)
      [.create "A" 0, .add "A" "q" "r" 1] = true
    ∧ ((runOps (ConversationStore.init 1000 86400 3600)
          [.create "A" 0, .add "A" "q" "r" 1]).messagesOf "A").map
        (fun m => (m.query, m.response))
      = expectedMsgs [] "A" [.create "A" 0, .add "A" "q" "r" 1] := by
  have h : noForcedCleanup (ConversationStore.init 1000 86400 3600)
      [.create "A" 0, .add "A" "q" "r" 1] = true := by decide
  exact ⟨h, add_message_effects.2.2 1000 86400 3600
    [.create "A" 0, .add "A" "q" "r" 1] "A" h⟩

/-! ### Eviction-pass lemmas -/

theorem findConv_eq_none_iff (l : List (String × Conversation)) (x : String) :
    findConv l x = none ↔ ¬ x ∈ l.map (·.1) := by
  rw [← findConv_isSome_iff]
  cases findConv l x <;> simp

theorem mem_keys_filter_iff (l : List (String × Conversation))
    (q : (String × Conversation) → Bool) (hw : (l.map (·.1)).Nodup)
    (p : String × Conversation) (hp : p ∈ l) :
    p.1 ∈ (l.filter q).map (·.1) ↔ q p = true := by
  constructor
  · intro hm
    obtain ⟨x, hx, he⟩ := List.mem_map.mp hm
    have hxl : x ∈ l := List.mem_of_mem_filter hx
    have hq : q x = true := List.of_mem_filter hx
    have hxp : x = p := List.inj_on_of_nodup_map hw hxl hp he
    rwa [hxp] at hq
  · intro hq
    exact List.mem_map.mpr ⟨p, List.mem_filter.mpr ⟨hp, hq⟩, rfl⟩

/-- With unique keys, deleting the ids marked by the age scan is the same as
keeping exactly the conversations whose access time is at or after the
cutoff. -/
theorem cleanup_remaining_eq (l : List (String × Conversation)) (cutoff : Int)
    (hw : (l.map (·.1)).Nodup) :
    (l.filter fun p => decide
        (p.1 ∉ (l.filter fun p => decide (p.2.last_accessed < cutoff)).map (·.1)))
    = l.filter fun p => !decide (p.2.last_accessed < cutoff) := by
  refine List.filter_congr fun p hp => ?_
  have hiff := mem_keys_filter_iff l (fun p => decide (p.2.last_accessed < cutoff)) hw p hp
  by_cases hh : p.2.last_accessed < cutoff
  · have hm : p.1 ∈ (l.filter fun p => decide (p.2.last_accessed < cutoff)).map (·.1) :=
      hiff.mpr (by simpa using hh)
    simp [hm, hh]
  · have hm : ¬ p.1 ∈ (l.filter fun p => decide (p.2.last_accessed < cutoff)).map (·.1) :=
      fun hm => hh (by simpa using hiff.mp hm)
    simp [hm, hh]

theorem length_filter_not {α : Type} (l : List α) (p : α → Bool) :
    (l.filter fun a => !(p a)).length = l.length - (l.filter p).length := by
  induction l with
  | nil => rfl
  | cons a l ih =>
      have hle := List.length_filter_le p l
      cases h : p a <;> (simp [List.filter_cons, h, ih]; try omega)

/-- With unique keys, a kept entry is still found, with its value intact,
after a filter pass. -/
theorem findConv_filter_kept (l : List (String × Conversation))
    (q : (String × Conversation) → Bool) (hw : (l.map (·.1)).Nodup)
    (p : String × Conversation) (hp : p ∈ l) (hq : q p = true) :
    findConv (l.filter q) p.1 = some p.2 := by
  induction l with
  | nil => cases hp
  | cons a l ih =>
      rw [List.map_cons, List.nodup_cons] at hw
      rcases List.mem_cons.mp hp with rfl | hp'
      · rw [List.filter_cons, if_pos (by simpa using hq), findConv_cons, if_pos rfl]
      · have hne : a.1 ≠ p.1 := fun he =>
          hw.1 (he ▸ List.mem_map.mpr ⟨p, hp', rfl⟩)
        rw [List.filter_cons]
        by_cases ha : q a = true
        · rw [if_pos (by simpa using ha), findConv_cons, if_neg hne]
          exact ih hw.2 hp'
        · rw [if_neg (by simpa using ha)]
          exact ih hw.2 hp'

/-- The conversations the age phase of an eviction pass keeps: those accessed
at or after `now - max_conversation_age`. -/
def ageKept (st : ConversationStore) (now : Int) : List (String × Conversation) :=
  st.conversations.filter fun p =>
    !decide (p.2.last_accessed < now - st.max_conversation_age)

/-- How many conversations the capacity phase must remove. -/
def excessCount (st : ConversationStore) (now : Int) : Nat :=
  (ageKept st now).length - st.max_conversations

/-- The conversations the capacity phase removes: the `excessCount` oldest
survivors of the age phase, in ascending last-access order. -/
def lruVictims (st : ConversationStore) (now : Int) : List (String × Conversation) :=
  (sortByLastAccessed (ageKept st now)).take (excessCount st now)

theorem decide_not_mem_append (x : String) (a b : List String) :
    decide (x ∉ a ++ b) = (decide (x ∉ a) && decide (x ∉ b)) := by
  simp [List.mem_append, not_or]

/-- Characterization of a forced eviction pass on a store with unique keys:
the age phase keeps exactly the non-expired conversations, and the capacity
phase removes exactly the `excessCount` oldest of those — and only fires when
they still exceed the bound. -/
theorem cleanup_forced_conversations_eq (st : ConversationStore) (now : Int)
    (hw : (st.conversations.map (·.1)).Nodup) :
    (st.cleanup_old_conversations true now).2.conversations
    = if st.max_conversations < (ageKept st now).length then
        (ageKept st now).filter fun p =>
          decide (p.1 ∉ (lruVictims st now).map (·.1))
      else ageKept st now := by
  unfold ConversationStore.cleanup_old_conversations
  simp only [Bool.not_true, Bool.false_and, if_neg (by simp : ¬ (false = true))]
  have hrem : (st.conversations.filter fun p => decide
        (p.1 ∉ (st.conversations.filter fun p =>
          decide (p.2.last_accessed < now - st.max_conversation_age)).map (·.1)))
      = ageKept st now :=
    cleanup_remaining_eq st.conversations (now - st.max_conversation_age) hw
  have hlen : st.conversations.length
        - ((st.conversations.filter fun p =>
            decide (p.2.last_accessed < now - st.max_conversation_age)).map (·.1)).length
      = (ageKept st now).length := by
    rw [List.length_map, ageKept,
      length_filter_not st.conversations
        (fun p => decide (p.2.last_accessed < now - st.max_conversation_age))]
  have hsl : (sortByLastAccessed (ageKept st now)).length = (ageKept st now).length :=
    (List.perm_insertionSort _ _).length_eq
  by_cases hover : st.max_conversations < (ageKept st now).length
  · rw [if_pos (by rw [hlen]; exact hover), hrem, if_pos (by rw [hsl]; omega),
      if_pos hover]
    have hsplit : ∀ p : String × Conversation,
        p ∈ st.conversations →
        (decide (p.1 ∉
            ((st.conversations.filter fun p =>
              decide (p.2.last_accessed < now - st.max_conversation_age)).map (·.1))
            ++ ((sortByLastAccessed (ageKept st now)).take
                  ((sortByLastAccessed (ageKept st now)).length
                    - st.max_conversations)).map (·.1)))
          = (decide (p.1 ∉ ((sortByLastAccessed (ageKept st now)).take
                  ((sortByLastAccessed (ageKept st now)).length
                    - st.max_conversations)).map (·.1))
             && decide (p.1 ∉ (st.conversations.filter fun p =>
                decide (p.2.last_accessed < now - st.max_conversation_age)).map (·.1)))
          := fun p _ => by
      rw [decide_not_mem_append]
      exact Bool.and_comm _ _
    rw [List.filter_congr hsplit, ← List.filter_filter, hrem, hsl]
    rfl
  · rw [if_neg (by rw [hlen]; exact hover), hrem, if_neg hover]

/-- Dropping the keys of the first `k` entries from a unique-key list keeps
exactly the entries after position `k`. -/
theorem filter_keys_append (a b : List (String × Conversation))
    (hnd : ((a ++ b).map (·.1)).Nodup) :
    (a ++ b).filter (fun p => decide (p.1 ∉ a.map (·.1))) = b := by
  rw [List.filter_append]
  have h1 : a.filter (fun p => decide (p.1 ∉ a.map (·.1))) = [] := by
    rw [List.filter_eq_nil_iff]
    intro p hp
    simp only [decide_eq_true_eq, not_not, Decidable.not_not]
    exact List.mem_map.mpr ⟨p, hp, rfl⟩
  have h2 : b.filter (fun p => decide (p.1 ∉ a.map (·.1))) = b := by
    rw [List.filter_eq_self]
    intro p hp
    simp only [decide_eq_true_eq]
    intro hmem
    rw [List.map_append] at hnd
    exact List.disjoint_of_nodup_append hnd hmem (List.mem_map.mpr ⟨p, hp, rfl⟩)
  rw [h1, h2, List.nil_append]

theorem filter_keys_drop (s : List (String × Conversation)) (k : Nat)
    (hnd : (s.map (·.1)).Nodup) :
    s.filter (fun p => decide (p.1 ∉ (s.take k).map (·.1))) = s.drop k := by
  have h := filter_keys_append (s.take k) (s.drop k)
    (by rw [List.take_append_drop]; exact hnd)
  rwa [List.take_append_drop] at h

theorem ageKept_keys_nodup (st : ConversationStore) (now : Int)
    (hw : (st.conversations.map (·.1)).Nodup) :
    ((ageKept st now).map (·.1)).Nodup :=
  List.Nodup.sublist (List.Sublist.map _ (List.filter_sublist _)) hw

theorem sorted_ageKept_keys_nodup (st : ConversationStore) (now : Int)
    (hw : (st.conversations.map (·.1)).Nodup) :
    ((sortByLastAccessed (ageKept st now)).map (·.1)).Nodup :=
  ((List.perm_insertionSort _ (ageKept st now)).map (·.1)).symm.nodup
    (ageKept_keys_nodup st now hw)

/-- The survivors of the capacity phase are, up to order, the sorted age
survivors with the first `excessCount` entries removed. -/
theorem capacity_survivors_perm (st : ConversationStore) (now : Int)
    (hw : (st.conversations.map (·.1)).Nodup) :
    ((ageKept st now).filter fun p => decide (p.1 ∉ (lruVictims st now).map (·.1))).Perm
      ((sortByLastAccessed (ageKept st now)).drop (excessCount st now)) := by
  have hperm : (sortByLastAccessed (ageKept st now)).Perm (ageKept st now) :=
    List.perm_insertionSort _ _
  have h1 : ((ageKept st now).filter fun p =>
        decide (p.1 ∉ (lruVictims st now).map (·.1))).Perm
      ((sortByLastAccessed (ageKept st now)).filter fun p =>
        decide (p.1 ∉ (lruVictims st now).map (·.1))) :=
    hperm.symm.filter _
  have h2 : ((sortByLastAccessed (ageKept st now)).filter fun p =>
        decide (p.1 ∉ (lruVictims st now).map (·.1)))
      = (sortByLastAccessed (ageKept st now)).drop (excessCount st now) := by
    unfold lruVictims
    exact filter_keys_drop _ _ (sorted_ageKept_keys_nodup st now hw)
  rw [h2] at h1
  exact h1

/-- A forced eviction pass never leaves the store above its capacity bound,
and when the age phase alone was insufficient it leaves exactly
`max_conversations` conversations. -/
theorem cleanup_forced_count (st : ConversationStore) (now : Int)
    (hw : (st.conversations.map (·.1)).Nodup) :
    (st.cleanup_old_conversations true now).2.conversations.length
      ≤ st.max_conversations
    ∧ (st.max_conversations < (ageKept st now).length →
        (st.cleanup_old_conversations true now).2.conversations.length
          = st.max_conversations) := by
  rw [cleanup_forced_conversations_eq st now hw]
  by_cases hover : st.max_conversations < (ageKept st now).length
  · rw [if_pos hover]
    have hsl : (sortByLastAccessed (ageKept st now)).length = (ageKept st now).length :=
      (List.perm_insertionSort _ _).length_eq
    have hlen : ((ageKept st now).filter fun p =>
          decide (p.1 ∉ (lruVictims st now).map (·.1))).length
        = (sortByLastAccessed (ageKept st now)).length - excessCount st now := by
      rw [(capacity_survivors_perm st now hw).length_eq, List.length_drop]
    rw [hlen, hsl]
    unfold excessCount
    omega
  · rw [if_neg hover]
    exact ⟨by omega, fun h => absurd h hover⟩

theorem cleanup_conversations_sublist (st : ConversationStore) (force : Bool)
    (now : Int) :
    (st.cleanup_old_conversations force now).2.conversations.Sublist
      st.conversations := by
  unfold ConversationStore.cleanup_old_conversations
  dsimp only
  split
  · exact List.Sublist.refl _
  · exact List.filter_sublist _

theorem cleanup_max_eq (st : ConversationStore) (force : Bool) (now : Int) :
    (st.cleanup_old_conversations force now).2.max_conversations
      = st.max_conversations := by
  unfold ConversationStore.cleanup_old_conversations
  dsimp only
  split
  · rfl
  · rfl

theorem create_max_eq (st : ConversationStore) (id : String) (now : Int) :
    (st.create_conversation id now).2.max_conversations = st.max_conversations := by
  unfold ConversationStore.create_conversation
  split
  · rfl
  · dsimp only
    split
    · rw [cleanup_max_eq]
    · rfl

theorem create_keys_nodup (st : ConversationStore) (id : String) (now : Int)
    (hw : (st.conversations.map (·.1)).Nodup) :
    ((st.create_conversation id now).2.conversations.map (·.1)).Nodup := by
  unfold ConversationStore.create_conversation
  split
  · exact hw

  case isFalse hex =>
    have hni : ¬ id ∈ st.conversations.map (·.1) := fun hm =>
      hex ((findConv_isSome_iff _ _).mpr hm)
    have hw1 : ((st.conversations
        ++ [(id, (⟨id, [], now, now, []⟩ : Conversation))]).map (·.1)).Nodup := by
      rw [List.map_append]
      rw [List.nodup_append]
      exact ⟨hw, List.nodup_singleton _, by
        intro x hx hx1
        simp only [List.map_cons, List.map_nil, List.mem_singleton] at hx1
        exact hni (hx1 ▸ hx)⟩
    dsimp only
    split
    · exact List.Nodup.sublist
        (List.Sublist.map _ (cleanup_conversations_sublist _ true now)) hw1
    · exact hw1

theorem create_count_le (st : ConversationStore) (id : String) (now : Int)
    (hw : (st.conversations.map (·.1)).Nodup)
    (hle : st.conversations.length ≤ st.max_conversations) :
    (st.create_conversation id now).2.conversations.length
      ≤ st.max_conversations := by
  unfold ConversationStore.create_conversation
  split
  · exact hle

  case isFalse hex =>
    have hni : ¬ id ∈ st.conversations.map (·.1) := fun hm =>
      hex ((findConv_isSome_iff _ _).mpr hm)
    have hw1 : ((st.conversations
        ++ [(id, (⟨id, [], now, now, []⟩ : Conversation))]).map (·.1)).Nodup := by
      rw [List.map_append, List.nodup_append]
      exact ⟨hw, List.nodup_singleton _, by
        intro x hx hx1
        simp only [List.map_cons, List.map_nil, List.mem_singleton] at hx1
        exact hni (hx1 ▸ hx)⟩
    dsimp only
    split
    case isTrue hgt =>
      have h := (cleanup_forced_count
        { st with
          conversations := st.conversations ++ [(id, ⟨id, [], now, now, []⟩)],
          stats := { st.stats with
            total_conversations_created :=
              st.stats.total_conversations_created + 1 } } now hw1).1
      exact h
    case isFalse hng =>
      simp only [List.length_append, List.length_cons, List.length_nil]
      simp only [List.length_append, List.length_cons, List.length_nil] at hng
      omega

/-! ### Claim theorems: capacity invariant (C3) -/

/-- C3: starting from a freshly constructed store with
`max_conversations = N`, after any sequence of `create` calls (each insert
past the bound triggering the synchronous forced eviction inside
`create_conversation`) the number of live conversations is at most `N`; being
universally quantified over the call sequence, the bound holds when each
call returns. -/
theorem store_capacity_invariant (N : Nat) (age interval : Int)
    (creates : List (String × Int)) :
    (creates.foldl (fun s p => (s.create_conversation p.1 p.2).2)
        (ConversationStore.init N age interval)).conversations.length ≤ N := by
  suffices h : ∀ (ops : List (String × Int)) (st : ConversationStore),
      (st.conversations.map (·.1)).Nodup →
      st.conversations.length ≤ st.max_conversations →
      (ops.foldl (fun s p => (s.create_conversation p.1 p.2).2) st).conversations.length
        ≤ (ops.foldl (fun s p => (s.create_conversation p.1 p.2).2) st).max_conversations
      ∧ (ops.foldl (fun s p => (s.create_conversation p.1 p.2).2) st).max_conversations
        = st.max_conversations by
    have hini := h creates (ConversationStore.init N age interval)
      (by simp [ConversationStore.init]) (by simp [ConversationStore.init])
    have : (ConversationStore.init N age interval).max_conversations = N := rfl
    omega
  intro ops
  induction ops with
  | nil =>
      intro st _ hle
      exact ⟨hle, rfl⟩
  | cons p rest ih =>
      intro st hw hle
      have hw' := create_keys_nodup st p.1 p.2 hw
      have hle' := create_count_le st p.1 p.2 hw hle
      have hmax := create_max_eq st p.1 p.2
      have hres := ih ((st.create_conversation p.1 p.2).2) hw' (by rw [hmax]; exact hle')
      rw [List.foldl_cons]
      exact ⟨hres.1, by rw [hres.2, hmax]⟩

/-! ### Strict-LRU rank lemmas -/

/-- In a list strictly sorted by access time, an element lies beyond position
`k` exactly when at least `k` elements have a strictly smaller access time. -/
theorem mem_drop_iff_rank :
    ∀ (s : List (String × Conversation)) (k : Nat),
    List.Pairwise (fun a b => a.2.last_accessed < b.2.last_accessed) s →
    ∀ p ∈ s,
    (p ∈ s.drop k ↔
      k ≤ (s.filter fun q => decide (q.2.last_accessed < p.2.last_accessed)).length) := by
  intro s
  induction s with
  | nil =>
      intro k _ p hp
      cases hp
  | cons a s ih =>
      intro k hs p hp
      rw [List.pairwise_cons] at hs
      obtain ⟨ha, hs'⟩ := hs
      rcases List.mem_cons.mp hp with rfl | hp'
      · have hfilt : ((p :: s).filter fun q =>
            decide (q.2.last_accessed < p.2.last_accessed)) = [] := by
          rw [List.filter_eq_nil_iff]
          intro q hq
          rcases List.mem_cons.mp hq with rfl | hq'
          · simp
          · have := ha q hq'
            simp only [decide_eq_true_eq]
            omega
        rw [hfilt]
        simp only [List.length_nil, Nat.le_zero]
        constructor
        · intro hmem
          cases k with
          | zero => rfl
          | succ j =>
              exfalso
              rw [List.drop_succ_cons] at hmem
              have hmem' : p ∈ s := List.mem_of_mem_drop hmem
              have := ha p hmem'
              omega
        · rintro rfl
          rw [List.drop_zero]
          exact List.mem_cons_self p s
      · have hlt : a.2.last_accessed < p.2.last_accessed := ha p hp'
        have hfilt : ((a :: s).filter fun q =>
              decide (q.2.last_accessed < p.2.last_accessed))
            = a :: (s.filter fun q =>
                decide (q.2.last_accessed < p.2.last_accessed)) := by
          rw [List.filter_cons, if_pos (by simpa using hlt)]
        rw [hfilt]
        cases k with
        | zero =>
            simp only [List.drop_zero, Nat.zero_le, iff_true]
            exact hp
        | succ j =>
            rw [List.drop_succ_cons, List.length_cons, Nat.succ_le_succ_iff]
            exact ih j hs' p hp'

/-- When all access times are distinct, the stable ascending sort is strictly
increasing. -/
theorem sortByLastAccessed_strict (R : List (String × Conversation))
    (hnd : (R.map fun p => p.2.last_accessed).Nodup) :
    List.Pairwise (fun a b => a.2.last_accessed < b.2.last_accessed)
      (sortByLastAccessed R) := by
  haveI : IsTotal (String × Conversation)
      (fun a b => a.2.last_accessed ≤ b.2.last_accessed) :=
    ⟨fun a b => Int.le_total _ _⟩
  haveI : IsTrans (String × Conversation)
      (fun a b => a.2.last_accessed ≤ b.2.last_accessed) :=
    ⟨fun a b c hab hbc => le_trans hab hbc⟩
  have hsorted : List.Pairwise (fun a b => a.2.last_accessed ≤ b.2.last_accessed)
      (sortByLastAccessed R) := List.sorted_insertionSort _ R
  have hperm : (sortByLastAccessed R).Perm R := List.perm_insertionSort _ R
  have hnd' : ((sortByLastAccessed R).map fun p => p.2.last_accessed).Nodup :=
    (hperm.map _).symm.nodup hnd
  have hne : List.Pairwise
      (fun a b : String × Conversation => a.2.last_accessed ≠ b.2.last_accessed)
      (sortByLastAccessed R) := List.pairwise_map.mp hnd'
  exact (hsorted.and hne).imp fun hab => lt_of_le_of_ne hab.1 hab.2

/-- When the age survivors still exceed the bound, a forced pass keeps a
non-expired conversation exactly when at least `excessCount` age survivors
have a strictly smaller access time (strict LRU for the overflow). -/
theorem cleanup_lru_characterization (st : ConversationStore) (now : Int)
    (hw : (st.conversations.map (·.1)).Nodup)
    (hdt : (st.conversations.map fun p => p.2.last_accessed).Nodup)
    (hover : st.max_conversations < (ageKept st now).length)
    (p : String × Conversation) (hp : p ∈ st.conversations)
    (hkeep : ¬ p.2.last_accessed < now - st.max_conversation_age) :
    (st.cleanup_old_conversations true now).2.find p.1 = some p.2 ↔
      excessCount st now ≤ ((ageKept st now).filter fun q =>
        decide (q.2.last_accessed < p.2.last_accessed)).length := by
  have hpA : p ∈ ageKept st now := List.mem_filter.mpr ⟨hp, by simpa using hkeep⟩
  have hnda : ((ageKept st now).map (·.1)).Nodup := ageKept_keys_nodup st now hw
  have hnds : ((sortByLastAccessed (ageKept st now)).map (·.1)).Nodup :=
    sorted_ageKept_keys_nodup st now hw
  have hndt : ((ageKept st now).map fun p => p.2.last_accessed).Nodup :=
    List.Nodup.sublist (List.Sublist.map _ (List.filter_sublist _)) hdt
  have hstrict := sortByLastAccessed_strict (ageKept st now) hndt
  have hperm : (sortByLastAccessed (ageKept st now)).Perm (ageKept st now) :=
    List.perm_insertionSort _ _
  have hpS : p ∈ sortByLastAccessed (ageKept st now) := hperm.mem_iff.mpr hpA
  have hconv := cleanup_forced_conversations_eq st now hw
  rw [if_pos hover] at hconv
  have hfind : (st.cleanup_old_conversations true now).2.find p.1
      = findConv ((ageKept st now).filter fun q =>
          decide (q.1 ∉ (lruVictims st now).map (·.1))) p.1 := by
    unfold ConversationStore.find
    rw [hconv]
  have hvict : p.1 ∈ (lruVictims st now).map (·.1) ↔ p ∈ lruVictims st now := by
    constructor
    · intro hm
      obtain ⟨q, hq, he⟩ := List.mem_map.mp hm
      have hqS : q ∈ sortByLastAccessed (ageKept st now) := List.mem_of_mem_take hq
      have hqp : q = p := List.inj_on_of_nodup_map hnds hqS hpS he
      rwa [hqp] at hq
    · intro hm
      exact List.mem_map.mpr ⟨p, hm, rfl⟩
  have hnodupS : (sortByLastAccessed (ageKept st now)).Nodup :=
    List.Nodup.of_map _ hnds
  have hSsplit : p ∈ (sortByLastAccessed (ageKept st now)).drop (excessCount st now)
      ↔ ¬ p ∈ lruVictims st now := by
    constructor
    · intro hd hm
      rw [← List.take_append_drop (excessCount st now)
        (sortByLastAccessed (ageKept st now))] at hnodupS
      exact (List.disjoint_of_nodup_append hnodupS) hm hd
    · intro hnm
      have hmem := hpS
      rw [← List.take_append_drop (excessCount st now)
        (sortByLastAccessed (ageKept st now))] at hmem
      rcases List.mem_append.mp hmem with h | h
      · exact absurd h hnm
      · exact h
  have hrankS := mem_drop_iff_rank (sortByLastAccessed (ageKept st now))
    (excessCount st now) hstrict p hpS
  have hranklen : ((sortByLastAccessed (ageKept st now)).filter fun q =>
        decide (q.2.last_accessed < p.2.last_accessed)).length
      = ((ageKept st now).filter fun q =>
        decide (q.2.last_accessed < p.2.last_accessed)).length :=
    (hperm.filter _).length_eq
  constructor
  · intro hfound
    have hnv : ¬ p.1 ∈ (lruVictims st now).map (·.1) := by
      intro hm
      have hnone : findConv ((ageKept st now).filter fun q =>
          decide (q.1 ∉ (lruVictims st now).map (·.1))) p.1 = none := by
        rw [findConv_eq_none_iff]
        intro hk
        obtain ⟨q, hq, he⟩ := List.mem_map.mp hk
        have hqp : ¬ q.1 ∈ (lruVictims st now).map (·.1) := by
          have := List.of_mem_filter hq
          simpa using this
        exact hqp (he ▸ hm)
      rw [hfind, hnone] at hfound
      cases hfound
    have hdrop : p ∈ (sortByLastAccessed (ageKept st now)).drop (excessCount st now) :=
      hSsplit.mpr fun hm => hnv (hvict.mpr hm)
    have := hrankS.mp hdrop
    rwa [hranklen] at this
  · intro hrank
    have hdrop := hrankS.mpr (by rwa [← hranklen] at hrank)
    have hnm : ¬ p ∈ lruVictims st now := hSsplit.mp hdrop
    have hq : (fun q : String × Conversation =>
        decide (q.1 ∉ (lruVictims st now).map (·.1))) p = true := by
      simp only [decide_eq_true_eq]
      intro hm
      exact hnm (hvict.mp hm)
    rw [hfind]
    exact findConv_filter_kept (ageKept st now) _ hnda p hpA hq

/-! ### Claim theorems: eviction policy (C4) -/

/-- C4: an eviction pass follows the exact two-phase policy.  (i) Unforced
passes are no-ops while less than `cleanup_interval` has elapsed since the
last run.  (ii) On a forced pass, every conversation accessed before
`now - max_conversation_age` is removed unconditionally.  (iii) If the age
survivors fit within `max_conversations`, every non-expired conversation is
kept untouched (the capacity phase does not fire).  (iv) If they still exceed
the bound, a non-expired conversation survives exactly when at least
`excessCount` age survivors were accessed strictly earlier — strict LRU for
the overflow.  (v) Scenario C: `maxConversations = 2`, creating A, B, C at
times 1 < 2 < 3 evicts A and keeps B and C. -/
theorem cleanup_two_phase_policy (st : ConversationStore) (now : Int) :
    (∀ t, st.stats.last_cleanup = some t → now - t < st.cleanup_interval →
      st.cleanup_old_conversations false now = (0, st))
    ∧ ((st.conversations.map (·.1)).Nodup →
       ∀ p, p ∈ st.conversations →
         p.2.last_accessed < now - st.max_conversation_age →
         (st.cleanup_old_conversations true now).2.find p.1 = none)
    ∧ ((st.conversations.map (·.1)).Nodup →
       (ageKept st now).length ≤ st.max_conversations →
       ∀ p, p ∈ st.conversations →
         ¬ p.2.last_accessed < now - st.max_conversation_age →
         (st.cleanup_old_conversations true now).2.find p.1 = some p.2)
    ∧ ((st.conversations.map (·.1)).Nodup →
       (st.conversations.map fun p => p.2.last_accessed).Nodup →
       st.max_conversations < (ageKept st now).length →
       ∀ p, p ∈ st.conversations →
         ¬ p.2.last_accessed < now - st.max_conversation_age →
         ((st.cleanup_old_conversations true now).2.find p.1 = some p.2 ↔
           excessCount st now ≤ ((ageKept st now).filter fun q =>
             decide (q.2.last_accessed < p.2.last_accessed)).length))
    ∧ (((((ConversationStore.init 2 86400 3600).create_conversation "A" 1).2.create_conversation
          "B" 2).2.create_conversation "C" 3).2.conversations.map (·.1) = ["B", "C"]) := by
  refine ⟨?_, ?_, ?_, ?_, by decide⟩
  · intro t h1 h2
    unfold ConversationStore.cleanup_old_conversations
    simp [h1, h2]
  · intro hw p hp hexp
    have hconv := cleanup_forced_conversations_eq st now hw
    unfold ConversationStore.find
    rw [hconv, findConv_eq_none_iff]
    intro hk
    obtain ⟨q, hq, he⟩ := List.mem_map.mp hk
    have hqA : q ∈ ageKept st now := by
      by_cases hov : st.max_conversations < (ageKept st now).length
      · rw [if_pos hov] at hq
        exact List.mem_of_mem_filter hq
      · rw [if_neg hov] at hq
        exact hq
    have hq2 : q ∈ st.conversations := List.mem_of_mem_filter hqA
    have hqp : q = p := List.inj_on_of_nodup_map hw hq2 hp he
    rw [hqp] at hqA
    have hkept := List.of_mem_filter hqA
    simp only [Bool.not_eq_true', decide_eq_false_iff_not] at hkept
    exact hkept hexp
  · intro hw hle p hp hkeep
    have hconv := cleanup_forced_conversations_eq st now hw
    rw [if_neg (by omega)] at hconv
    unfold ConversationStore.find
    rw [hconv]
    exact findConv_filter_kept st.conversations _ hw p hp (by simpa using hkeep)
  · intro hw hdt hover p hp hkeep
    exact cleanup_lru_characterization st now hw hdt hover p hp hkeep

/-- A store for the C4 witness: one conversation "old" last accessed at time 0
in a store whose maximum age is 5 time units. -/
def stW4 : ConversationStore :=
  ((ConversationStore.init 10 5 3600).create_conversation "old" 0).2

/-- Witness for C4 at a concrete input: at time 100 the conversation "old"
(access time 0, cutoff 95) is removed by the unconditional age phase. -/
theorem cleanup_two_phase_policy_witness :
    ((stW4.conversations.map (·.1)).Nodup
      ∧ ("old", (⟨"old", [], 0, 0, []⟩ : Conversation)) ∈ stW4.conversations
      ∧ ((0 : Int) < 100 - (5 : Int)))
    ∧ (stW4.cleanup_old_conversations true 100).2.find "old" = none := by
  have hw : (stW4.conversations.map (·.1)).Nodup := by decide
  have hp : ("old", (⟨"old", [], 0, 0, []⟩ : Conversation)) ∈ stW4.conversations := by
    decide
  have hexp : (("old", (⟨"old", [], 0, 0, []⟩ : Conversation)) :
      String × Conversation).2.last_accessed < 100 - stW4.max_conversation_age := by
    decide
  exact ⟨⟨hw, hp, by decide⟩,
    (cleanup_two_phase_policy stW4 100).2.1 hw _ hp hexp⟩
